import Mathlib

set_option maxHeartbeats 1000000

/-!
Shallow embedding of the ACD-PAYMENT-HISTORY extraction heuristic
(`src/scraper.py`, class `PaymentDataScraper`) and of the user-edit
endpoint (`src/app.py`, `update_data`).

Strings are modelled by Lean `String` (a list of characters), and all
string primitives the Python code uses (`str.lower`, `str.strip`,
`str.split`, `' '.join`, substring test `in`, `str.startswith`) are
given explicit character-list implementations below, restricted to the
ASCII fragment the heuristic actually manipulates.  A Python `dict` of
string keys and string values (a record) is modelled as an
insertion-ordered association list with unique keys, with `dinsert`
playing the role of `d[k] = v`.
-/

namespace PaymentScraper

/-- Whitespace, modelling the characters Python's `str.split()` /
`str.strip()` and the regex class `\s` treat as whitespace (ASCII fragment). -/
def isSpaceChar (c : Char) : Bool :=
  c == ' ' || c == '\t' || c == '\n' || c == '\r'

/-- ASCII lower-casing of one character, modelling `str.lower()`. -/
def lowerChar (c : Char) : Char :=
  if 'A' ≤ c ∧ c ≤ 'Z' then Char.ofNat (c.toNat + 32) else c

/-- `str.lower()`. -/
def lowerStr (s : String) : String := String.mk (s.data.map lowerChar)

/-- Test that `pre` is a prefix of `l` (character lists). -/
def prefixMatch : List Char → List Char → Bool
  | [], _ => true
  | _ :: _, [] => false
  | a :: as, b :: bs => a == b && prefixMatch as bs

/-- Test that `needle` occurs as a contiguous substring of the second list. -/
def subMatch : List Char → List Char → Bool
  | needle, [] => needle.isEmpty
  | needle, c :: rest => prefixMatch needle (c :: rest) || subMatch needle rest

/-- Python's `needle in hay` on strings. -/
def strContains (hay needle : String) : Bool := subMatch needle.data hay.data

/-- Python's `s.startswith(pre)`. -/
def strStarts (s pre : String) : Bool := prefixMatch pre.data s.data

/-- Splitter for `text.split()`: accumulate the current word (reversed) and
cut at whitespace, discarding empty pieces. -/
def splitWsAux : List Char → List Char → List (List Char)
  | cur, [] => if cur = [] then [] else [cur.reverse]
  | cur, c :: cs =>
    if isSpaceChar c then
      if cur = [] then splitWsAux [] cs else cur.reverse :: splitWsAux [] cs
    else splitWsAux (c :: cur) cs

/-- `text.split()` (split on whitespace runs, no empty words). -/
def wordsOf (s : List Char) : List (List Char) := splitWsAux [] s

/-- `' '.join(words)`. -/
def joinWithSpace : List (List Char) → List Char
  | [] => []
  | [w] => w
  | w :: ws => w ++ ' ' :: joinWithSpace ws

/-- `s.strip()`: drop whitespace from both ends. -/
def stripChars (l : List Char) : List Char :=
  ((l.dropWhile isSpaceChar).reverse.dropWhile isSpaceChar).reverse

/-- `s.strip()` on strings. -/
def stripStr (s : String) : String := String.mk (stripChars s.data)

/-- The character whitelist of the regex in `_clean_text` (kept
characters): word characters, whitespace, the currency symbols, and the
punctuation characters dot, comma, colon, hyphen, slash, parentheses and
percent. -/
def whitelistChar (c : Char) : Bool :=
  c.isAlphanum || c == '_' || isSpaceChar c ||
  c == '$' || c == '€' || c == '£' || c == '¥' ||
  c == '.' || c == ',' || c == ':' || c == '-' ||
  c == '/' || c == '(' || c == ')' || c == '%'

/-- `PaymentDataScraper._clean_text` on character lists:
`' '.join(text.split())`, then delete every non-whitelisted character,
then `strip()`. -/
def cleanChars (s : List Char) : List Char :=
  stripChars ((joinWithSpace (wordsOf s)).filter whitelistChar)

/-- `PaymentDataScraper._clean_text` (the `if not text` guard returns `""`,
which agrees with the computation on the empty string). -/
def cleanText (s : String) : String := String.mk (cleanChars s.data)

/-- Decides that a character list has no two adjacent whitespace characters. -/
def wsRunFree : List Char → Bool
  | [] => true
  | [_] => true
  | a :: b :: rest => !(isSpaceChar a && isSpaceChar b) && wsRunFree (b :: rest)

/-- Split at the first `:` (Python's `text.split(':', 1)` guarded by
`':' in text`): `none` when there is no colon. -/
def breakAtColon : List Char → Option (List Char × List Char)
  | [] => none
  | c :: cs =>
    if c == ':' then some ([], cs)
    else (breakAtColon cs).map (fun p => (c :: p.1, p.2))

/-- Lexicographic comparison of character lists by code point,
modelling Python string `<`. -/
def strLtB : List Char → List Char → Bool
  | [], [] => false
  | [], _ :: _ => true
  | _ :: _, [] => false
  | a :: as, b :: bs => if a < b then true else if b < a then false else strLtB as bs

/-- A record: a Python dict from column name to string value, modelled as
an insertion-ordered association list. -/
abbrev Rec := List (String × String)

/-- The keys of a record, in insertion order. -/
def rkeys (r : Rec) : List String := r.map Prod.fst

/-- Dict lookup `r[k]` (as an `Option`). -/
def rlookup (r : Rec) (k : String) : Option String :=
  (r.find? (fun p => p.1 = k)).map Prod.snd

/-- Dict assignment `r[k] = v`: overwrite in place if the key exists,
otherwise append at the end (Python dicts preserve insertion order). -/
def dinsert (r : Rec) (k v : String) : Rec :=
  if r.any (fun p => p.1 = k) then
    r.map (fun p => if p.1 = k then (k, v) else p)
  else r ++ [(k, v)]

/-- `self.target_columns` from `PaymentDataScraper.__init__`. -/
def targetColumns : List String :=
  ["Receipt No", "Date", "Principal", "Pen", "CBU", "CBU withdraw", "Collector"]

/-- `self.calculated_columns` from `PaymentDataScraper.__init__`. -/
def calculatedColumns : List String :=
  ["Principal_PassBook", "Principal_Variance", "CBU_PassBook", "CBU_Variance",
   "CBU_withdraw_PassBook", "CBU_withdraw_Variance"]

/-- The whitelist of editable columns in `app.update_data` (line 110). -/
def editableColumns : List String :=
  ["Principal_PassBook", "Principal_Variance", "CBU_PassBook", "CBU_Variance",
   "CBU_withdraw_PassBook", "CBU_withdraw_Variance"]

/-- `payment_indicators` from `_is_payment_table`. -/
def paymentIndicators : List String :=
  ["receipt", "date", "principal", "collector", "pen", "cbu", "payment", "amount paid"]

/-- One table cell: whether it is a `th`, whether it renders bold
(`cell.find('b')` or inline bold style), and its text content. -/
structure Cell where
  th : Bool
  bold : Bool
  text : String
deriving DecidableEq

/-- One table row (`tr`), as its list of cells in document order. -/
abbrev Row := List Cell

/-- `table.get_text().lower()`, modelled as the lower-cased concatenation
of all cell texts of the table. -/
def tableText (t : List Row) : String :=
  lowerStr (String.join (t.map (fun r => String.join (r.map Cell.text))))

/-- `PaymentDataScraper._is_payment_table`: at least 4 of the indicator
keywords occur in the (lower-cased) table text. -/
def isPaymentTable (ttext : String) : Bool :=
  decide (4 ≤ (paymentIndicators.filter (fun ind => strContains ttext ind)).length)

/-- `PaymentDataScraper._contains_header_keywords`: some target column name
occurs (case-insensitively) in the space-joined header text. -/
def containsHeaderKeywords (headers : List String) : Bool :=
  targetColumns.any (fun t => strContains (lowerStr (String.intercalate " " headers)) (lowerStr t))

/-- The cleaned texts of a list of cells. -/
def cleanedTexts (cs : List Cell) : List String := cs.map (fun c => cleanText c.text)

/-- The header-row test of `_process_table`'s first loop applied to one row:
`th` cells win; otherwise non-empty `td` cells with a bold cell or with
target keywords in their joined cleaned text. -/
def headerOfRow (r : Row) : Option (List String) :=
  let th := r.filter Cell.th
  if th ≠ [] then some (cleanedTexts th)
  else
    let td := r.filter (fun c => !c.th)
    if td ≠ [] ∧ (td.any Cell.bold ∨ containsHeaderKeywords (cleanedTexts td) = true) then
      some (cleanedTexts td)
    else none

/-- The header-search loop of `_process_table`: the first row matching
`headerOfRow`, together with its index. -/
def findHeaderPairAux : Nat → List Row → Option (Nat × List String)
  | _, [] => none
  | i, r :: rs =>
    match headerOfRow r with
    | some hs => some (i, hs)
    | none => findHeaderPairAux (i + 1) rs

/-- Header row of a table: index and cleaned header texts. -/
def findHeaderPair (t : List Row) : Option (Nat × List String) :=
  findHeaderPairAux 0 t

/-- `PaymentDataScraper._map_headers_to_targets`, on one header label:
the rule-ordered pattern match of lines 160-191. -/
def headerRules (header h : String) : List (Bool × String) :=
  [(h == "date", "Date"),
   (["receipt no", "receipt", "receipt number", "ref no", "reference",
      "transaction id"].contains h, "Receipt No"),
   (h == "principal", "Principal"),
   (h == "pen", "Pen"),
   (h == "cbu", "CBU"),
   (h == "cbu withdraw", "CBU withdraw"),
   (h == "collector", "Collector"),
   (strContains h "date" && decide (h.length ≤ 10), "Date"),
   (["penalty", "pen", "denda"].contains h || (h == "pen" && decide (header.length ≤ 5)), "Pen"),
   (strContains h "principal" || strContains h "pokok", "Principal"),
   (strStarts h "cbu" && (strContains h "withdraw" || strContains h "tarik"), "CBU withdraw"),
   (strStarts h "cbu", "CBU"),
   (strContains h "collector" || strContains h "kolektor", "Collector")]

/-- The elif chain of `_map_headers_to_targets` on the normalised header
`h`, as first-match-wins rule evaluation (the nested `cbu` branch of lines
185-189 becomes the two consecutive `cbu` rules). -/
def mapHeaderNorm (header h : String) : Option String :=
  ((headerRules header h).find? Prod.fst).map Prod.snd

/-- `PaymentDataScraper._map_headers_to_targets` on one header label:
normalise with `header.lower().strip()` and run the rule chain. -/
def mapHeader (header : String) : Option String :=
  mapHeaderNorm header (stripStr (lowerStr header))

/-- `PaymentDataScraper._map_headers_to_targets`: the dict from header
position to target column, as an association list over positions. -/
def mapHeadersToTargets (headers : List String) : List (Nat × String) :=
  headers.enum.filterMap (fun ih => (mapHeader ih.2).map (fun t => (ih.1, t)))

/-- Lookup `column_mapping.get(i)`. -/
def lookupIdx (mapping : List (Nat × String)) (i : Nat) : Option String :=
  (mapping.find? (fun p => p.1 = i)).map Prod.snd

/-- The inner cell loop of `_process_table` (lines 126-131): build
`row_data` from the cells whose position is mapped and whose cleaned text
is non-empty. -/
def buildRowData (mapping : List (Nat × String)) (row : Row) : Rec :=
  row.enum.foldl
    (fun rd ic =>
      let ct := cleanText ic.2.text
      match lookupIdx mapping ic.1 with
      | some tc => if ct ≠ "" then dinsert rd tc ct else rd
      | none => rd)
    []

/-- Lines 136-141 of `_process_table`: set the six calculated columns to
the empty string. -/
def addCalcColumns (rd : Rec) : Rec :=
  calculatedColumns.foldl (fun r c => dinsert r c "") rd

/-- One iteration of the data-row loop of `_process_table` (lines 121-142):
`none` when the row is skipped, `some record` when a record is appended. -/
def extractRow (mapping : List (Nat × String)) (headers : List String) (row : Row) :
    Option Rec :=
  if row.length = headers.length then
    let rd := buildRowData mapping row
    if 3 ≤ rd.length then some (addCalcColumns rd) else none
  else none

/-- `PaymentDataScraper._process_table`: classify, find a header row, map
headers, gate on the number of mapped positions, then extract data rows
from `all_rows[1:]`. -/
def processTable (t : List Row) : List Rec :=
  if isPaymentTable (tableText t) = true then
    match findHeaderPair t with
    | none => []
    | some (_, headers) =>
      if headers = [] then []
      else
        let mapping := mapHeadersToTargets headers
        if mapping.length < 3 then []
        else (t.drop 1).filterMap (extractRow mapping headers)
  else []

/-- `PaymentDataScraper._extract_from_tables`. -/
def extractFromTables (tables : List (List Row)) : List Rec :=
  (tables.map processTable).flatten

/-- One iteration of `_extract_from_structured_content`'s element loop on a
cleaned element text: on a `key: value` pattern whose stripped key contains
some target column name (case-insensitively, first match wins), assign the
stripped value to that target column. -/
def stepKV (r : Rec) (text : String) : Rec :=
  match breakAtColon text.data with
  | none => r
  | some kv =>
    let key := String.mk (stripChars kv.1)
    let value := String.mk (stripChars kv.2)
    match targetColumns.find? (fun t => strContains (lowerStr key) (lowerStr t)) with
    | some t => dinsert r t value
    | none => r

/-- The element loop of `_extract_from_structured_content`: flush the
current record as soon as it has at least 2 fields, and append any
non-empty leftover record at the end. -/
def extractStructuredAux : Rec → List String → List Rec
  | cur, [] => if cur = [] then [] else [cur]
  | cur, txt :: rest =>
    let cur2 := stepKV cur (cleanText txt)
    if 2 ≤ cur2.length then cur2 :: extractStructuredAux [] rest
    else extractStructuredAux cur2 rest

/-- `PaymentDataScraper._extract_from_structured_content`, on the cleaned
texts of the page's block-level (`div`/`span`/`p`) elements. -/
def extractStructured (blocks : List String) : List Rec :=
  extractStructuredAux [] blocks

/-- Ordered insertion w.r.t. the Python tuple order on `(key, value)`
pairs (compare keys, then values, by code point). -/
def sortedInsert (p : String × String) : List (String × String) → List (String × String)
  | [] => [p]
  | q :: qs =>
    if strLtB p.1.data q.1.data ∨ (p.1 = q.1 ∧ (strLtB p.2.data q.2.data ∨ p.2 = q.2)) then
      p :: q :: qs
    else q :: sortedInsert p qs

/-- `tuple(sorted(item.items()))`: the duplicate signature of a record. -/
def sigOf (r : Rec) : List (String × String) := r.foldr sortedInsert []

/-- The loop of `_remove_duplicates`, with `seen` the set of signatures
already encountered (modelled as a list). -/
def removeDuplicatesAux : List (List (String × String)) → List Rec → List Rec
  | _, [] => []
  | seen, r :: rs =>
    if sigOf r ∈ seen then removeDuplicatesAux seen rs
    else r :: removeDuplicatesAux (sigOf r :: seen) rs

/-- `PaymentDataScraper._remove_duplicates`. -/
def removeDuplicates (l : List Rec) : List Rec := removeDuplicatesAux [] l

/-- `PaymentDataScraper.scrape_payment_data` after the page has been
parsed: tables first, the structured fallback only when the tables yield
nothing, then deduplication. -/
def scrapePaymentData (tables : List (List Row)) (blocks : List String) : List Rec :=
  let tableData := extractFromTables tables
  let paymentData := if tableData = [] then extractStructured blocks else tableData
  removeDuplicates paymentData

/-- The inner key loop of `app.update_data` (lines 109-111): assign each
whitelisted key of the update mapping on one record (values are
stringified, hence `String` here). -/
def applyUpdates (r : Rec) (upd : List (String × String)) : Rec :=
  upd.foldl (fun acc kv => if kv.1 ∈ editableColumns then dinsert acc kv.1 kv.2 else acc) r

/-- One entry of `app.update_data`'s row loop (lines 106-111), with Python
list-index semantics for `data[row_idx]`: indices `≥ len(data)` fail the
`row_idx < len(data)` guard and are silently skipped; negative indices
address from the end; an index below `-len(data)` raises `IndexError`,
the request aborts, and the session is not persisted — modelled as `none`
(no change is ever persisted in that case). -/
def updateRecordAt (data : List Rec) (rowIdx : Int) (upd : List (String × String)) :
    Option (List Rec) :=
  if rowIdx < (data.length : Int) then
    if 0 ≤ rowIdx then
      some (data.set rowIdx.toNat (applyUpdates (data.getD rowIdx.toNat []) upd))
    else if -(data.length : Int) ≤ rowIdx then
      some (data.set (rowIdx + data.length).toNat
        (applyUpdates (data.getD (rowIdx + data.length).toNat []) upd))
    else none
  else some data

/-! ### Generic helper lemmas -/

theorem foldl_invariant {α β : Type} (P : β → Prop) (f : β → α → β) (l : List α)
    (hf : ∀ b a, a ∈ l → P b → P (f b a)) :
    ∀ b : β, P b → P (l.foldl f b) := by
  induction l with
  | nil => intro b hb; exact hb
  | cons a l ih =>
    intro b hb
    exact ih (fun b' a' ha' hb' => hf b' a' (List.mem_cons_of_mem a ha') hb') (f b a)
      (hf b a (List.mem_cons_self a l) hb)

theorem getD_set_ne (l : List Rec) (i j : Nat) (x : Rec) (h : j ≠ i) :
    (l.set i x).getD j [] = l.getD j [] := by
  induction l generalizing i j with
  | nil => simp
  | cons a l ih =>
    cases i with
    | zero =>
      cases j with
      | zero => exact absurd rfl h
      | succ j => simp [List.set, List.getD]
    | succ i =>
      cases j with
      | zero => simp [List.set, List.getD]
      | succ j =>
        simp only [List.set, List.getD_cons_succ]
        exact ih i j (fun hji => h (by omega))

/-! ### Lemmas about the record (dict) operations -/

theorem mem_dinsert (r : Rec) (k v : String) (p : String × String)
    (hp : p ∈ dinsert r k v) : p = (k, v) ∨ p ∈ r := by
  unfold dinsert at hp
  split at hp
  · rcases List.mem_map.mp hp with ⟨q, hq, hfq⟩
    by_cases hqk : q.1 = k
    · left; rw [if_pos hqk] at hfq; exact hfq.symm
    · right; rw [if_neg hqk] at hfq; exact hfq ▸ hq
  · rcases List.mem_append.mp hp with h | h
    · right; exact h
    · left; simpa using h

theorem rkeys_dinsert_of_mem (r : Rec) (k v : String) (hk : r.any (fun p => p.1 = k) = true) :
    rkeys (dinsert r k v) = rkeys r := by
  unfold dinsert
  rw [if_pos hk]
  unfold rkeys
  rw [List.map_map]
  apply List.map_congr_left
  intro p _
  by_cases h : p.1 = k <;> simp [h]

theorem rkeys_dinsert_of_not_mem (r : Rec) (k v : String)
    (hk : ¬ r.any (fun p => p.1 = k) = true) :
    dinsert r k v = r ++ [(k, v)] := by
  unfold dinsert
  rw [if_neg hk]

theorem any_key_iff (r : Rec) (k : String) :
    r.any (fun p => p.1 = k) = true ↔ k ∈ rkeys r := by
  unfold rkeys
  simp [List.any_eq_true, List.mem_map]

theorem rkeys_dinsert_nodup (r : Rec) (k v : String) (h : (rkeys r).Nodup) :
    (rkeys (dinsert r k v)).Nodup := by
  by_cases hk : r.any (fun p => p.1 = k) = true
  · rw [rkeys_dinsert_of_mem r k v hk]; exact h
  · rw [rkeys_dinsert_of_not_mem r k v hk]
    have hknot : k ∉ rkeys r := fun hmem => hk ((any_key_iff r k).mpr hmem)
    unfold rkeys
    rw [List.map_append]
    simp only [List.map_cons, List.map_nil]
    refine List.Nodup.append h (List.nodup_singleton k) ?_
    intro x hx hx2
    have hxk : x = k := by simpa using hx2
    subst hxk
    exact hknot hx

theorem find?_key_map_overwrite (k v k' : String) (h : k' ≠ k) (r : Rec) :
    List.find? (fun p => p.1 = k') (r.map (fun p => if p.1 = k then (k, v) else p)) =
      List.find? (fun p => p.1 = k') r := by
  induction r with
  | nil => rfl
  | cons q qs ih =>
    by_cases hq : q.1 = k
    · have h1 : (decide (((k, v) : String × String).1 = k')) = false := by
        simp only [decide_eq_false_iff_not]
        exact fun hh => h hh.symm
      have h2 : (decide (q.1 = k')) = false := by
        simp only [decide_eq_false_iff_not]
        intro hh
        exact h (hh ▸ hq)
      simp [List.find?, if_pos hq, h1, h2, ih]
    · by_cases hq2 : q.1 = k'
      · have hd : (decide (q.1 = k')) = true := by simp [hq2]
        simp [List.find?, if_neg hq, hd]
      · simp [List.find?, if_neg hq, hq2, ih]

theorem rlookup_dinsert_ne (r : Rec) (k v k' : String) (h : k' ≠ k) :
    rlookup (dinsert r k v) k' = rlookup r k' := by
  unfold dinsert rlookup
  split
  · rw [find?_key_map_overwrite k v k' h r]
  · rw [List.find?_append]
    have h1 : List.find? (fun p => p.1 = k') [(k, v)] = none := by
      have hd : (decide (((k, v) : String × String).1 = k')) = false := by
        simp only [decide_eq_false_iff_not]
        exact fun hh => h hh.symm
      simp [List.find?, hd]
    rw [h1]
    cases List.find? (fun p => decide (p.1 = k')) r <;> rfl

theorem length_eq_rkeys_length (r : Rec) : r.length = (rkeys r).length := by
  unfold rkeys; rw [List.length_map]

theorem nodup_subset_dedup_length {l tg : List String} (h1 : l.Nodup) (h2 : ∀ x ∈ l, x ∈ tg) :
    l.length ≤ tg.dedup.length := by
  have hsub : l ⊆ tg.dedup := fun x hx => List.mem_dedup.mpr (h2 x hx)
  exact (List.subperm_of_subset h1 hsub).length_le

/-! ### Lemmas about header mapping and row extraction -/

theorem mapHeaderNorm_mem_targets (hd h t : String) (hm : mapHeaderNorm hd h = some t) :
    t ∈ targetColumns := by
  unfold mapHeaderNorm at hm
  rcases Option.map_eq_some'.mp hm with ⟨p, hf, hpt⟩
  subst hpt
  have hp := List.mem_of_find?_eq_some hf
  unfold headerRules at hp
  simp only [List.mem_cons, List.not_mem_nil, or_false] at hp
  rcases hp with h1 | h1 | h1 | h1 | h1 | h1 | h1 | h1 | h1 | h1 | h1 | h1 | h1 <;>
    (subst h1; simp [targetColumns])

theorem mapHeader_mem_targets (hd t : String) (hm : mapHeader hd = some t) :
    t ∈ targetColumns :=
  mapHeaderNorm_mem_targets hd (stripStr (lowerStr hd)) t hm

theorem mapping_snd_targets (hs : List String) (p : Nat × String)
    (hp : p ∈ mapHeadersToTargets hs) : p.2 ∈ targetColumns := by
  unfold mapHeadersToTargets at hp
  rcases List.mem_filterMap.mp hp with ⟨ih, _, hmap⟩
  rcases Option.map_eq_some'.mp hmap with ⟨t, hmh, hpt⟩
  subst hpt
  exact mapHeader_mem_targets ih.2 t hmh

theorem lookupIdx_mem_snd (m : List (Nat × String)) (i : Nat) (t : String)
    (h : lookupIdx m i = some t) : t ∈ m.map Prod.snd := by
  unfold lookupIdx at h
  rcases Option.map_eq_some'.mp h with ⟨p, hf, hpt⟩
  subst hpt
  exact List.mem_map_of_mem Prod.snd (List.mem_of_find?_eq_some hf)

theorem buildRowData_inv (m : List (Nat × String)) (row : Row) :
    (∀ p ∈ buildRowData m row, p.2 ≠ "" ∧ p.1 ∈ m.map Prod.snd) ∧
      (rkeys (buildRowData m row)).Nodup := by
  unfold buildRowData
  refine foldl_invariant
    (fun rd => (∀ p ∈ rd, p.2 ≠ "" ∧ p.1 ∈ m.map Prod.snd) ∧ (rkeys rd).Nodup)
    _ row.enum ?_ [] ⟨by simp, by simp [rkeys]⟩
  intro rd ic _ hP
  obtain ⟨h1, h2⟩ := hP
  cases hli : lookupIdx m ic.1 with
  | none => simpa only [hli] using ⟨h1, h2⟩
  | some tc =>
    simp only [hli]
    split
    · rename_i hct
      refine ⟨?_, rkeys_dinsert_nodup _ _ _ h2⟩
      intro p hp
      rcases mem_dinsert _ _ _ p hp with hpe | hpin
      · subst hpe
        exact ⟨hct, lookupIdx_mem_snd m ic.1 tc hli⟩
      · exact h1 p hpin
    · exact ⟨h1, h2⟩

theorem extractRow_eq_some (m : List (Nat × String)) (hs : List String) (row : Row) (r : Rec)
    (h : extractRow m hs row = some r) :
    row.length = hs.length ∧ 3 ≤ (buildRowData m row).length ∧
      r = addCalcColumns (buildRowData m row) := by
  simp only [extractRow] at h
  split at h
  · split at h
    · rename_i hlen h3
      exact ⟨hlen, h3, (Option.some_injective _ h).symm⟩
    · exact Option.noConfusion h
  · exact Option.noConfusion h

theorem mem_addCalcColumns (rd : Rec) (p : String × String) (hp : p ∈ addCalcColumns rd) :
    p ∈ rd ∨ (p.1 ∈ calculatedColumns ∧ p.2 = "") := by
  unfold addCalcColumns at hp
  revert hp
  refine foldl_invariant
    (fun r => ∀ q ∈ r, q ∈ rd ∨ (q.1 ∈ calculatedColumns ∧ q.2 = ""))
    _ calculatedColumns ?_ rd (fun q hq => Or.inl hq) p
  intro b a ha hb q hq
  rcases mem_dinsert _ _ _ q hq with hqe | hqin
  · subst hqe
    exact Or.inr ⟨ha, rfl⟩
  · exact hb q hqin

theorem dinsert_fold_append (cs : List String) :
    ∀ rd : Rec, (∀ c ∈ cs, c ∉ rkeys rd) → cs.Nodup →
      cs.foldl (fun r c => dinsert r c "") rd = rd ++ cs.map (fun c => (c, "")) := by
  induction cs with
  | nil => intro rd _ _; simp
  | cons c cs ih =>
    intro rd hnot hnd
    have hc : ¬ rd.any (fun p => p.1 = c) = true := by
      intro hany
      exact hnot c (List.mem_cons_self c cs) ((any_key_iff rd c).mp hany)
    simp only [List.foldl_cons]
    rw [rkeys_dinsert_of_not_mem rd c "" hc]
    rw [ih (rd ++ [(c, "")]) ?_ (List.Nodup.of_cons hnd)]
    · simp
    · intro c' hc' hmem
      unfold rkeys at hmem
      rw [List.map_append] at hmem
      rcases List.mem_append.mp hmem with hmem1 | hmem2
      · exact hnot c' (List.mem_cons_of_mem c hc') hmem1
      · have : c' = c := by simpa using hmem2
        subst this
        exact (List.nodup_cons.mp hnd).1 hc'

theorem targets_calc_disjoint : ∀ x ∈ targetColumns, x ∉ calculatedColumns := by decide

theorem addCalcColumns_eq_append (rd : Rec) (hrd : ∀ p ∈ rd, p.1 ∈ targetColumns) :
    addCalcColumns rd = rd ++ calculatedColumns.map (fun c => (c, "")) := by
  unfold addCalcColumns
  refine dinsert_fold_append calculatedColumns rd ?_ (by decide)
  intro c hc hmem
  unfold rkeys at hmem
  rcases List.mem_map.mp hmem with ⟨p, hp, hpc⟩
  exact targets_calc_disjoint p.1 (hrd p hp) (hpc ▸ hc)

theorem mem_processTable (t : List Row) (r : Rec) (hr : r ∈ processTable t) :
    ∃ i hs, findHeaderPair t = some (i, hs) ∧ hs ≠ [] ∧
      3 ≤ (mapHeadersToTargets hs).length ∧
      ∃ row ∈ t.drop 1, extractRow (mapHeadersToTargets hs) hs row = some r := by
  simp only [processTable] at hr
  split at hr
  · split at hr
    · exact absurd hr (List.not_mem_nil r)
    · rename_i i hs heq
      split at hr
      · exact absurd hr (List.not_mem_nil r)
      · split at hr
        · exact absurd hr (List.not_mem_nil r)
        · rename_i hne hlen
          rcases List.mem_filterMap.mp hr with ⟨row, hrow, hext⟩
          exact ⟨i, hs, heq, hne, by omega, row, hrow, hext⟩
  · exact absurd hr (List.not_mem_nil r)

/-! ### Concrete sample tables used by witnesses and counterexamples -/

/-- A well-formed payment table: a `th` header row followed by one data row. -/
def sampleTable : List Row :=
  [[⟨true, false, "Date"⟩, ⟨true, false, "Principal"⟩, ⟨true, false, "Pen"⟩,
    ⟨true, false, "CBU"⟩, ⟨true, false, "Collector"⟩],
   [⟨false, false, "1/1"⟩, ⟨false, false, "100"⟩, ⟨false, false, "5"⟩,
    ⟨false, false, "20"⟩, ⟨false, false, "John"⟩]]

/-- The record `sampleTable` yields. -/
def sampleRecord : Rec :=
  [("Date", "1/1"), ("Principal", "100"), ("Pen", "5"), ("CBU", "20"), ("Collector", "John"),
   ("Principal_PassBook", ""), ("Principal_Variance", ""), ("CBU_PassBook", ""),
   ("CBU_Variance", ""), ("CBU_withdraw_PassBook", ""), ("CBU_withdraw_Variance", "")]

/-- A table whose three headers all map, but to only two distinct target
columns (both "Date" and "Due Date" map to `Date`). -/
def sampleTableDupTargets : List Row :=
  [[⟨true, false, "Date"⟩, ⟨true, false, "Due Date"⟩, ⟨true, false, "Principal"⟩],
   [⟨false, false, "Jan 1"⟩, ⟨false, false, "Feb 2"⟩, ⟨false, false, "100 cbu pen collector"⟩]]

/-! ### C1 -/

theorem processTable_distinct_lower_bound (t : List Row) (r : Rec) (hr : r ∈ processTable t)
    (i : Nat) (hs : List String) (hfind : findHeaderPair t = some (i, hs)) :
    3 ≤ ((mapHeadersToTargets hs).map Prod.snd).dedup.length := by
  rcases mem_processTable t r hr with ⟨i', hs', hfind', _, _, row, _, hext⟩
  rw [hfind] at hfind'
  injection hfind' with hpair
  injection hpair with hi hhs
  subst hhs
  rcases extractRow_eq_some _ _ _ _ hext with ⟨_, h3, _⟩
  rcases buildRowData_inv (mapHeadersToTargets hs) row with ⟨hmem, hnd⟩
  have hsub : ∀ k ∈ rkeys (buildRowData (mapHeadersToTargets hs) row),
      k ∈ (mapHeadersToTargets hs).map Prod.snd := by
    intro k hk
    rcases List.mem_map.mp hk with ⟨p, hp, hpk⟩
    exact hpk ▸ (hmem p hp).2
  have hlen := nodup_subset_dedup_length hnd hsub
  rw [← length_eq_rkeys_length] at hlen
  omega

/-- C1: a table's rows are only ever extracted into records when at least
3 distinct target columns were mapped from its headers; in particular a
table whose headers map to at most 2 distinct target columns yields no
records at all. -/
theorem C1_accept_needs_three_distinct_targets (t : List Row) :
    (∀ i hs, findHeaderPair t = some (i, hs) →
      ((mapHeadersToTargets hs).map Prod.snd).dedup.length ≤ 2 → processTable t = [])
    ∧ (processTable t ≠ [] →
      ∃ i hs, findHeaderPair t = some (i, hs) ∧
        3 ≤ ((mapHeadersToTargets hs).map Prod.snd).dedup.length) := by
  constructor
  · intro i hs hfind hle
    rw [List.eq_nil_iff_forall_not_mem]
    intro r hr
    have := processTable_distinct_lower_bound t r hr i hs hfind
    omega
  · intro hne
    rcases List.exists_mem_of_ne_nil _ hne with ⟨r, hr⟩
    rcases mem_processTable t r hr with ⟨i, hs, hfind, _, _, _, _, _⟩
    exact ⟨i, hs, hfind, processTable_distinct_lower_bound t r hr i hs hfind⟩

/-- Witness for C1, on a concrete table whose headers map to only 2
distinct target columns: it yields no records. -/
theorem C1_accept_needs_three_distinct_targets_witness :
    findHeaderPair sampleTableDupTargets = some (0, ["Date", "Due Date", "Principal"]) ∧
    ((mapHeadersToTargets ["Date", "Due Date", "Principal"]).map Prod.snd).dedup.length ≤ 2 ∧
    processTable sampleTableDupTargets = [] := by
  refine ⟨rfl, by decide, ?_⟩
  exact (C1_accept_needs_three_distinct_targets sampleTableDupTargets).1 0
    ["Date", "Due Date", "Principal"] rfl (by decide)

/-! ### C2 -/

/-- C2: every record extracted from a table comes from a data row in
`all_rows[1:]` whose cell count equals the header count, carries at least
3 populated target fields (mapped columns with non-empty cleaned text),
and contains exactly the six calculated columns, each set to `""`. -/
theorem C2_row_extraction (t : List Row) (r : Rec) (hr : r ∈ processTable t) :
    (∃ i hs, findHeaderPair t = some (i, hs) ∧
      ∃ row ∈ t.drop 1, row.length = hs.length ∧
        extractRow (mapHeadersToTargets hs) hs row = some r)
    ∧ 3 ≤ (r.filter (fun p => decide (p.1 ∈ targetColumns) && decide (p.2 ≠ ""))).length
    ∧ r.filter (fun p => decide (p.1 ∈ calculatedColumns)) =
        calculatedColumns.map (fun c => (c, "")) := by
  rcases mem_processTable t r hr with ⟨i, hs, hfind, _, _, row, hrow, hext⟩
  rcases extractRow_eq_some _ _ _ _ hext with ⟨hlen, h3, hreq⟩
  rcases buildRowData_inv (mapHeadersToTargets hs) row with ⟨hmem, _⟩
  have htend : ∀ p ∈ buildRowData (mapHeadersToTargets hs) row, p.1 ∈ targetColumns := by
    intro p hp
    rcases List.mem_map.mp (hmem p hp).2 with ⟨q, hq, hqp⟩
    exact hqp ▸ mapping_snd_targets hs q hq
  have happ := addCalcColumns_eq_append (buildRowData (mapHeadersToTargets hs) row) htend
  refine ⟨⟨i, hs, hfind, row, hrow, hlen, hext⟩, ?_, ?_⟩
  · rw [hreq, happ, List.filter_append]
    have hself : (buildRowData (mapHeadersToTargets hs) row).filter
        (fun p => decide (p.1 ∈ targetColumns) && decide (p.2 ≠ "")) =
        buildRowData (mapHeadersToTargets hs) row := by
      rw [List.filter_eq_self]
      intro p hp
      rw [Bool.and_eq_true, decide_eq_true_iff, decide_eq_true_iff]
      exact ⟨htend p hp, (hmem p hp).1⟩
    rw [hself, List.length_append]
    omega
  · rw [hreq, happ, List.filter_append]
    have h1 : (buildRowData (mapHeadersToTargets hs) row).filter
        (fun p => decide (p.1 ∈ calculatedColumns)) = [] := by
      rw [List.filter_eq_nil_iff]
      intro p hp
      rw [decide_eq_true_iff]
      exact targets_calc_disjoint p.1 (htend p hp)
    have h2 : (calculatedColumns.map (fun c => (c, ""))).filter
        (fun p => decide (p.1 ∈ calculatedColumns)) =
        calculatedColumns.map (fun c => (c, "")) := by
      rw [List.filter_eq_self]
      intro p hp
      rcases List.mem_map.mp hp with ⟨c, hc, hcp⟩
      rw [decide_eq_true_iff]
      exact hcp ▸ hc
    rw [h1, h2, List.nil_append]

/-- Witness for C2 at a concrete table and record. -/
theorem C2_row_extraction_witness :
    sampleRecord ∈ processTable sampleTable ∧
    3 ≤ (sampleRecord.filter
      (fun p => decide (p.1 ∈ targetColumns) && decide (p.2 ≠ ""))).length ∧
    sampleRecord.filter (fun p => decide (p.1 ∈ calculatedColumns)) =
      calculatedColumns.map (fun c => (c, "")) := by
  have hmem : sampleRecord ∈ processTable sampleTable := by
    have : processTable sampleTable = [sampleRecord] := by rfl
    rw [this]
    exact List.mem_singleton.mpr rfl
  exact ⟨hmem, (C2_row_extraction sampleTable sampleRecord hmem).2.1,
    (C2_row_extraction sampleTable sampleRecord hmem).2.2⟩

/-! ### C3 -/

/-- C3: the classifier accepts a table exactly when at least 4 distinct
indicator keywords occur in its lower-cased text (the indicator list has
no duplicates, so the code's count is a count of distinct indicators);
and on the header row [Date, Principal, Pen, CBU, Collector] the mapper
maps all 5 positions to their target columns. -/
theorem C3_payment_classifier :
    (∀ ttext : String, isPaymentTable ttext = true ↔
      4 ≤ ((paymentIndicators.filter (fun ind => strContains ttext ind)).dedup).length)
    ∧ mapHeadersToTargets ["Date", "Principal", "Pen", "CBU", "Collector"] =
      [(0, "Date"), (1, "Principal"), (2, "Pen"), (3, "CBU"), (4, "Collector")] := by
  constructor
  · intro ttext
    rw [List.dedup_eq_self.mpr (List.Nodup.filter _ (by decide))]
    unfold isPaymentTable
    exact decide_eq_true_iff
  · rfl

/-- Witness for C3: the classifier accepts a concrete table text with
exactly 4 distinct indicators present. -/
theorem C3_payment_classifier_witness :
    isPaymentTable "date principal pen cbu" = true :=
  (C3_payment_classifier.1 "date principal pen cbu").mpr (by decide)

/-! ### C4 -/

theorem removeDuplicatesAux_sublist (l : List Rec) :
    ∀ seen, (removeDuplicatesAux seen l).Sublist l := by
  induction l with
  | nil => intro seen; simp [removeDuplicatesAux]
  | cons r rs ih =>
    intro seen
    unfold removeDuplicatesAux
    split
    · exact (ih seen).cons r
    · exact (ih (sigOf r :: seen)).cons₂ r

theorem mem_removeDuplicatesAux (y : Rec) (l : List Rec) :
    ∀ seen, y ∈ removeDuplicatesAux seen l ↔
      ∃ l₁ l₂, l = l₁ ++ y :: l₂ ∧ sigOf y ∉ seen ∧ ∀ x ∈ l₁, sigOf x ≠ sigOf y := by
  induction l with
  | nil =>
    intro seen
    simp [removeDuplicatesAux]
  | cons r rs ih =>
    intro seen
    unfold removeDuplicatesAux
    split
    · rename_i hin
      rw [ih seen]
      constructor
      · rintro ⟨l₁, l₂, heq, hni, hall⟩
        refine ⟨r :: l₁, l₂, by rw [heq, List.cons_append], hni, ?_⟩
        intro x hx
        rcases List.mem_cons.mp hx with hxr | hxl
        · subst hxr
          intro hcon
          exact hni (hcon ▸ hin)
        · exact hall x hxl
      · rintro ⟨l₁, l₂, heq, hni, hall⟩
        cases l₁ with
        | nil =>
          simp only [List.nil_append, List.cons.injEq] at heq
          exact absurd (heq.1 ▸ hin) hni
        | cons a l₁ =>
          simp only [List.cons_append, List.cons.injEq] at heq
          exact ⟨l₁, l₂, heq.2, hni, fun x hx => hall x (List.mem_cons_of_mem a hx)⟩
    · rename_i hnin
      rw [List.mem_cons, ih (sigOf r :: seen)]
      constructor
      · rintro (hyr | ⟨l₁, l₂, heq, hni, hall⟩)
        · subst hyr
          exact ⟨[], rs, rfl, hnin, by simp⟩
        · have hni1 : sigOf y ∉ seen := fun hc => hni (List.mem_cons_of_mem _ hc)
          have hnir : sigOf y ≠ sigOf r := fun hc => hni (by rw [hc]; exact List.mem_cons_self _ _)
          refine ⟨r :: l₁, l₂, by rw [heq, List.cons_append], hni1, ?_⟩
          intro x hx
          rcases List.mem_cons.mp hx with hxr | hxl
          · subst hxr; exact fun hc => hnir hc.symm
          · exact hall x hxl
      · rintro ⟨l₁, l₂, heq, hni, hall⟩
        cases l₁ with
        | nil =>
          simp only [List.nil_append, List.cons.injEq] at heq
          exact Or.inl heq.1.symm
        | cons a l₁ =>
          simp only [List.cons_append, List.cons.injEq] at heq
          refine Or.inr ⟨l₁, l₂, heq.2, ?_, fun x hx => hall x (List.mem_cons_of_mem a hx)⟩
          intro hc
          rcases List.mem_cons.mp hc with h1 | h2
          · exact hall a (List.mem_cons_self a l₁) (heq.1 ▸ h1).symm
          · exact hni h2

theorem removeDuplicatesAux_sig_nodup (l : List Rec) :
    ∀ seen, ((removeDuplicatesAux seen l).map sigOf).Nodup ∧
      ∀ y ∈ removeDuplicatesAux seen l, sigOf y ∉ seen := by
  induction l with
  | nil => intro seen; simp [removeDuplicatesAux]
  | cons r rs ih =>
    intro seen
    unfold removeDuplicatesAux
    split
    · exact ih seen
    · rename_i hnin
      obtain ⟨hnd, hns⟩ := ih (sigOf r :: seen)
      constructor
      · simp only [List.map_cons, List.nodup_cons]
        refine ⟨?_, hnd⟩
        intro hc
        rcases List.mem_map.mp hc with ⟨y, hy, hsy⟩
        exact hns y hy (hsy ▸ List.mem_cons_self _ _)
      · intro y hy
        rcases List.mem_cons.mp hy with hyr | hymem
        · subst hyr; exact hnin
        · intro hc
          exact hns y hymem (List.mem_cons_of_mem _ hc)

/-- C4: deduplication keeps exactly the first occurrence of each record
(two records being duplicates precisely when their sorted key-value pair
sequences agree), preserves the relative order of the kept records, and
collapses two all-field-identical records to one. -/
theorem C4_dedup_first_occurrence (l : List Rec) :
    (removeDuplicates l).Sublist l
    ∧ (∀ y : Rec, y ∈ removeDuplicates l ↔
        ∃ l₁ l₂, l = l₁ ++ y :: l₂ ∧ ∀ x ∈ l₁, sigOf x ≠ sigOf y)
    ∧ ((removeDuplicates l).map sigOf).Nodup
    ∧ ∀ r : Rec, removeDuplicates [r, r] = [r] := by
  refine ⟨removeDuplicatesAux_sublist l [], ?_, (removeDuplicatesAux_sig_nodup l []).1, ?_⟩
  · intro y
    rw [removeDuplicates, mem_removeDuplicatesAux]
    simp only [List.not_mem_nil, not_false_iff, true_and]
  · intro r
    simp [removeDuplicates, removeDuplicatesAux]

/-- Witness for C4: order preservation and collapse on a concrete list. -/
theorem C4_dedup_first_occurrence_witness :
    (removeDuplicates [[("Date", "1/1")], [("Date", "1/1")], [("Pen", "5")]]).Sublist
      [[("Date", "1/1")], [("Date", "1/1")], [("Pen", "5")]] ∧
    removeDuplicates [[("Date", "1/1")], [("Date", "1/1")]] = [[("Date", "1/1")]] :=
  ⟨(C4_dedup_first_occurrence [[("Date", "1/1")], [("Date", "1/1")], [("Pen", "5")]]).1,
    (C4_dedup_first_occurrence [[("Date", "1/1")], [("Date", "1/1")], [("Pen", "5")]]).2.2.2
      [("Date", "1/1")]⟩

/-! ### C5 -/

theorem applyUpdates_non_whitelist (r : Rec) (upd : List (String × String)) (k : String)
    (hk : k ∉ editableColumns) : rlookup (applyUpdates r upd) k = rlookup r k := by
  unfold applyUpdates
  refine foldl_invariant (fun acc => rlookup acc k = rlookup r k) _ upd ?_ r rfl
  intro acc kv _ hacc
  split
  · rename_i hkv
    rw [rlookup_dinsert_ne acc kv.1 kv.2 k (fun he => hk (he ▸ hkv))]
    exact hacc
  · exact hacc

/-- C5: a user edit touches only whitelisted calculated columns of the
record addressed by the given index (Python list-index semantics), leaves
every other field of that record and every other record unchanged, and a
malformed edit is silently skipped (index at or above the length) or
rejected with no persisted change (index below minus the length, which
raises `IndexError` and aborts before the session is written). -/
theorem C5_user_edit (data : List Rec) (rowIdx : Int) (upd : List (String × String)) :
    ((data.length : Int) ≤ rowIdx → updateRecordAt data rowIdx upd = some data)
    ∧ (rowIdx < -(data.length : Int) → updateRecordAt data rowIdx upd = none)
    ∧ (0 ≤ rowIdx → rowIdx < (data.length : Int) →
        updateRecordAt data rowIdx upd =
          some (data.set rowIdx.toNat (applyUpdates (data.getD rowIdx.toNat []) upd)))
    ∧ (rowIdx < 0 → -(data.length : Int) ≤ rowIdx →
        updateRecordAt data rowIdx upd =
          some (data.set (rowIdx + data.length).toNat
            (applyUpdates (data.getD (rowIdx + data.length).toNat []) upd)))
    ∧ (∀ r k, k ∉ editableColumns → rlookup (applyUpdates r upd) k = rlookup r k)
    ∧ (∀ (i : Nat) (x : Rec) (j : Nat), j ≠ i →
        (data.set i x).getD j [] = data.getD j []) := by
  refine ⟨?_, ?_, ?_, ?_, fun r k hk => applyUpdates_non_whitelist r upd k hk,
    fun i x j hj => getD_set_ne data i j x hj⟩
  · intro hge
    unfold updateRecordAt
    rw [if_neg (by omega)]
  · intro hlt
    unfold updateRecordAt
    rw [if_pos (by omega), if_neg (by omega), if_neg (by omega)]
  · intro h0 hlen
    unfold updateRecordAt
    rw [if_pos hlen, if_pos h0]
  · intro hneg hge
    unfold updateRecordAt
    rw [if_pos (by omega), if_neg (by omega), if_pos hge]

/-- Witness for C5: editing record 0's `Principal_PassBook` leaves the
`Principal` field unchanged. -/
theorem C5_user_edit_witness :
    updateRecordAt [[("Principal", "100"), ("Principal_PassBook", "")]] 0
        [("Principal_PassBook", "99"), ("Principal", "1")] =
      some ([[("Principal", "100"), ("Principal_PassBook", "")]].set 0
        (applyUpdates ([[("Principal", "100"), ("Principal_PassBook", "")]].getD 0 [])
          [("Principal_PassBook", "99"), ("Principal", "1")])) ∧
    rlookup (applyUpdates [("Principal", "100"), ("Principal_PassBook", "")]
        [("Principal_PassBook", "99"), ("Principal", "1")]) "Principal" =
      rlookup [("Principal", "100"), ("Principal_PassBook", "")] "Principal" :=
  ⟨(C5_user_edit [[("Principal", "100"), ("Principal_PassBook", "")]] 0
      [("Principal_PassBook", "99"), ("Principal", "1")]).2.2.1 (by decide) (by decide),
    (C5_user_edit [[("Principal", "100"), ("Principal_PassBook", "")]] 0
      [("Principal_PassBook", "99"), ("Principal", "1")]).2.2.2.2.1
      [("Principal", "100"), ("Principal_PassBook", "")] "Principal" (by decide)⟩

/-! ### C6 and C9 -/

/-- The field `p` arises from the already-cleaned element text `txt` as a
`key: value` pattern whose stripped key contains the target column name
`p.1` (case-insensitively) and whose stripped value is `p.2`. -/
def fieldFromText (txt : String) (p : String × String) : Prop :=
  p.1 ∈ targetColumns ∧ ∃ kv, breakAtColon txt.data = some kv ∧
    strContains (lowerStr (String.mk (stripChars kv.1))) (lowerStr p.1) = true ∧
    p.2 = String.mk (stripChars kv.2)

theorem mem_stepKV (r : Rec) (txt : String) (p : String × String) (hp : p ∈ stepKV r txt) :
    p ∈ r ∨ fieldFromText txt p := by
  simp only [stepKV] at hp
  split at hp
  · exact Or.inl hp
  · rename_i kv hbc
    split at hp
    · rename_i tc hf
      rcases mem_dinsert _ _ _ p hp with hpe | hpin
      · subst hpe
        refine Or.inr ⟨List.mem_of_find?_eq_some hf, kv, hbc, ?_, rfl⟩
        simpa using List.find?_some hf
      · exact Or.inl hpin
    · exact Or.inl hp

theorem extractStructuredAux_ne_nil (ts : List String) :
    ∀ cur, ∀ r ∈ extractStructuredAux cur ts, r ≠ [] := by
  induction ts with
  | nil =>
    intro cur r hr
    simp only [extractStructuredAux] at hr
    split at hr
    · exact absurd hr (List.not_mem_nil r)
    · rename_i hcur
      rw [List.mem_singleton] at hr
      exact hr ▸ hcur
  | cons t ts ih =>
    intro cur r hr
    simp only [extractStructuredAux] at hr
    split at hr
    · rename_i h2
      rcases List.mem_cons.mp hr with hre | hrm
      · subst hre
        intro hnil
        rw [hnil] at h2
        simp at h2
      · exact ih [] r hrm
    · exact ih _ r hr

theorem extractStructuredAux_dropLast (ts : List String) :
    ∀ cur, ∀ r ∈ (extractStructuredAux cur ts).dropLast, 2 ≤ r.length := by
  induction ts with
  | nil =>
    intro cur r hr
    simp only [extractStructuredAux] at hr
    split at hr <;> simp at hr
  | cons t ts ih =>
    intro cur r hr
    simp only [extractStructuredAux] at hr
    split at hr
    · rename_i h2
      cases haux : extractStructuredAux [] ts with
      | nil =>
        rw [haux] at hr
        simp [List.dropLast] at hr
      | cons a rest =>
        rw [haux] at hr
        simp only [List.dropLast] at hr
        rcases List.mem_cons.mp hr with hre | hrm
        · exact hre ▸ h2
        · exact ih [] r (by rw [haux]; simpa [List.dropLast] using hrm)
    · exact ih _ r hr

theorem extractStructuredAux_fields (ts : List String) :
    ∀ cur, ∀ r ∈ extractStructuredAux cur ts, ∀ p ∈ r,
      p ∈ cur ∨ ∃ txt ∈ ts, fieldFromText (cleanText txt) p := by
  induction ts with
  | nil =>
    intro cur r hr p hp
    simp only [extractStructuredAux] at hr
    split at hr
    · exact absurd hr (List.not_mem_nil r)
    · rw [List.mem_singleton] at hr
      exact Or.inl (hr ▸ hp)
  | cons t ts ih =>
    intro cur r hr p hp
    simp only [extractStructuredAux] at hr
    split at hr
    · rcases List.mem_cons.mp hr with hre | hrm
      · subst hre
        rcases mem_stepKV cur (cleanText t) p hp with hin | hft
        · exact Or.inl hin
        · exact Or.inr ⟨t, List.mem_cons_self t ts, hft⟩
      · rcases ih [] r hrm p hp with hin | ⟨txt, htxt, hft⟩
        · exact absurd hin (List.not_mem_nil p)
        · exact Or.inr ⟨txt, List.mem_cons_of_mem t htxt, hft⟩
    · rcases ih _ r hr p hp with hin | ⟨txt, htxt, hft⟩
      · rcases mem_stepKV cur (cleanText t) p hin with hin2 | hft
        · exact Or.inl hin2
        · exact Or.inr ⟨t, List.mem_cons_self t ts, hft⟩
      · exact Or.inr ⟨txt, List.mem_cons_of_mem t htxt, hft⟩

/-- C6 counterexample: on the single block "Date: 1/1" the fallback
extractor appends the leftover record, which has only one field, so not
every produced record has at least 2 fields. -/
theorem C6_counterexample :
    extractStructured ["Date: 1/1"] = [[("Date", "1/1")]] ∧
    ¬ 2 ≤ ([("Date", "1/1")] : Rec).length :=
  ⟨rfl, by decide⟩

/-- C6 (amended): the structured fallback runs exactly when table
extraction yields no records; every field of a fallback record comes from
a `key: value` pattern whose key contains a target column name as a
substring; every fallback record is non-empty and every one except
possibly the final leftover record has at least 2 fields. -/
theorem C6_fallback_amended (tables : List (List Row)) (blocks : List String) :
    (extractFromTables tables ≠ [] →
      scrapePaymentData tables blocks = removeDuplicates (extractFromTables tables))
    ∧ (extractFromTables tables = [] →
      scrapePaymentData tables blocks = removeDuplicates (extractStructured blocks))
    ∧ (∀ r ∈ extractStructured blocks, 1 ≤ r.length)
    ∧ (∀ r ∈ (extractStructured blocks).dropLast, 2 ≤ r.length)
    ∧ (∀ r ∈ extractStructured blocks, ∀ p ∈ r,
        ∃ txt ∈ blocks, fieldFromText (cleanText txt) p) := by
  refine ⟨?_, ?_, ?_, extractStructuredAux_dropLast blocks [], ?_⟩
  · intro hne
    simp only [scrapePaymentData]
    rw [if_neg hne]
  · intro he
    simp only [scrapePaymentData]
    rw [if_pos he]
  · intro r hr
    have hnn := extractStructuredAux_ne_nil blocks [] r hr
    cases r with
    | nil => exact absurd rfl hnn
    | cons a l => simp
  · intro r hr p hp
    rcases extractStructuredAux_fields blocks [] r hr p hp with hin | h
    · exact absurd hin (List.not_mem_nil p)
    · exact h

/-- Witness for C6 (amended): with a non-empty table extraction the
fallback is not consulted. -/
theorem C6_fallback_amended_witness :
    extractFromTables [sampleTable] ≠ [] ∧
    scrapePaymentData [sampleTable] ["Date: 1/1"] =
      removeDuplicates (extractFromTables [sampleTable]) :=
  ⟨by decide, (C6_fallback_amended [sampleTable] ["Date: 1/1"]).1 (by decide)⟩

/-- C9: a record produced by the structured fallback contains none of the
six calculated columns: its keys are target columns only. -/
theorem C9_fallback_no_calc_columns (blocks : List String) (r : Rec)
    (hr : r ∈ extractStructured blocks) (c : String) (hc : c ∈ calculatedColumns) :
    rlookup r c = none := by
  unfold rlookup
  rw [Option.map_eq_none']
  rw [List.find?_eq_none]
  intro p hp
  rcases extractStructuredAux_fields blocks [] r hr p hp with hin | ⟨txt, _, hft⟩
  · exact absurd hin (List.not_mem_nil p)
  · intro hdec
    have hpc : p.1 = c := by simpa using hdec
    exact targets_calc_disjoint p.1 hft.1 (hpc ▸ hc)

/-- Witness for C9 at a concrete fallback record. -/
theorem C9_fallback_no_calc_columns_witness :
    rlookup [("Date", "1/1")] "Principal_PassBook" = none := by
  have hr : [("Date", "1/1")] ∈ extractStructured ["Date: 1/1"] := by
    have he : extractStructured ["Date: 1/1"] = [[("Date", "1/1")]] := rfl
    rw [he]
    exact List.mem_singleton.mpr rfl
  exact C9_fallback_no_calc_columns ["Date: 1/1"] [("Date", "1/1")] hr
    "Principal_PassBook" (by decide)

/-! ### C7 -/

theorem head_dropWhile_not_space (l : List Char) (c : Char)
    (h : (l.dropWhile isSpaceChar).head? = some c) : isSpaceChar c = false := by
  induction l with
  | nil => simp [List.dropWhile] at h
  | cons a t ih =>
    rw [List.dropWhile_cons] at h
    split at h
    · exact ih h
    · rename_i hpa
      injection h with hh
      subst hh
      exact Bool.not_eq_true _ |>.mp hpa

theorem stripChars_getLast (l : List Char) (c : Char)
    (h : (stripChars l).getLast? = some c) : isSpaceChar c = false := by
  unfold stripChars at h
  rw [List.getLast?_reverse] at h
  exact head_dropWhile_not_space _ c h

theorem stripChars_head (l : List Char) (c : Char)
    (h : (stripChars l).head? = some c) : isSpaceChar c = false := by
  unfold stripChars at h
  rw [List.head?_reverse] at h
  have hne : (l.dropWhile isSpaceChar).reverse.dropWhile isSpaceChar ≠ [] := by
    intro hnil
    rw [hnil] at h
    exact Option.noConfusion h
  rcases List.dropWhile_suffix (l := (l.dropWhile isSpaceChar).reverse) isSpaceChar
    with ⟨pre, hpre⟩
  have hgl : ((l.dropWhile isSpaceChar).reverse.dropWhile isSpaceChar).getLast? =
      (l.dropWhile isSpaceChar).reverse.getLast? := by
    conv_rhs => rw [← hpre]
    exact (List.getLast?_append_of_ne_nil pre hne).symm
  rw [hgl, List.getLast?_reverse] at h
  exact head_dropWhile_not_space l c h

theorem mem_stripChars (l : List Char) (c : Char) (hc : c ∈ stripChars l) : c ∈ l := by
  unfold stripChars at hc
  rw [List.mem_reverse] at hc
  have h1 := (List.dropWhile_sublist _).subset hc
  rw [List.mem_reverse] at h1
  exact (List.dropWhile_sublist _).subset h1

theorem splitWsAux_words (s : List Char) :
    ∀ cur, (∀ c ∈ cur, isSpaceChar c = false) →
      ∀ w ∈ splitWsAux cur s, w ≠ [] ∧ ∀ c ∈ w, isSpaceChar c = false := by
  induction s with
  | nil =>
    intro cur hcur w hw
    unfold splitWsAux at hw
    split at hw
    · exact absurd hw (List.not_mem_nil w)
    · rename_i hne
      rw [List.mem_singleton] at hw
      subst hw
      refine ⟨by simpa using hne, ?_⟩
      intro c hc
      rw [List.mem_reverse] at hc
      exact hcur c hc
  | cons a s ih =>
    intro cur hcur w hw
    unfold splitWsAux at hw
    split at hw
    · split at hw
      · exact ih [] (by simp) w hw
      · rename_i hsp hne
        rcases List.mem_cons.mp hw with hwe | hwm
        · subst hwe
          refine ⟨by simpa using hne, ?_⟩
          intro c hc
          rw [List.mem_reverse] at hc
          exact hcur c hc
        · exact ih [] (by simp) w hwm
    · rename_i hsp
      refine ih (a :: cur) ?_ w hw
      intro c hc
      rcases List.mem_cons.mp hc with hce | hcm
      · subst hce
        exact Bool.not_eq_true _ |>.mp hsp
      · exact hcur c hcm

theorem mem_joinWithSpace : ∀ (ws : List (List Char)) (c : Char), c ∈ joinWithSpace ws →
    c = ' ' ∨ ∃ w ∈ ws, c ∈ w := by
  intro ws
  induction ws with
  | nil => intro c hc; simp [joinWithSpace] at hc
  | cons w ws ih =>
    intro c hc
    cases ws with
    | nil =>
      right
      exact ⟨w, List.mem_singleton.mpr rfl, by simpa [joinWithSpace] using hc⟩
    | cons w2 ws2 =>
      rw [show joinWithSpace (w :: w2 :: ws2) = w ++ ' ' :: joinWithSpace (w2 :: ws2) from rfl]
        at hc
      rcases List.mem_append.mp hc with h1 | h2
      · exact Or.inr ⟨w, List.mem_cons_self _ _, h1⟩
      · rcases List.mem_cons.mp h2 with hce | hcm
        · exact Or.inl hce
        · rcases ih c hcm with h | ⟨w3, hw3, hcw3⟩
          · exact Or.inl h
          · exact Or.inr ⟨w3, List.mem_cons_of_mem w hw3, hcw3⟩

theorem wsRunFree_of_no_space : ∀ l : List Char, (∀ c ∈ l, isSpaceChar c = false) →
    wsRunFree l = true := by
  intro l
  induction l with
  | nil => intro _; rfl
  | cons a t ih =>
    intro h
    cases t with
    | nil => rfl
    | cons b t2 =>
      show (!(isSpaceChar a && isSpaceChar b) && wsRunFree (b :: t2)) = true
      rw [h a (List.mem_cons_self _ _)]
      rw [ih (fun c hc => h c (List.mem_cons_of_mem a hc))]
      rfl

theorem wsRunFree_append_left : ∀ (w l : List Char), (∀ c ∈ w, isSpaceChar c = false) →
    wsRunFree l = true → wsRunFree (w ++ l) = true := by
  intro w
  induction w with
  | nil => intro l _ hl; simpa using hl
  | cons a w ih =>
    intro l hw hl
    cases hwl : w ++ l with
    | nil =>
      show wsRunFree (a :: (w ++ l)) = true
      rw [hwl]
      rfl
    | cons d rest =>
      show wsRunFree (a :: (w ++ l)) = true
      rw [hwl]
      show (!(isSpaceChar a && isSpaceChar d) && wsRunFree (d :: rest)) = true
      rw [hw a (List.mem_cons_self _ _)]
      rw [← hwl, ih l (fun c hc => hw c (List.mem_cons_of_mem a hc)) hl]
      rfl

theorem head?_joinWithSpace (w : List Char) (ws : List (List Char)) (hne : w ≠ []) :
    (joinWithSpace (w :: ws)).head? = w.head? := by
  cases ws with
  | nil => rfl
  | cons w2 ws2 =>
    show (w ++ ' ' :: joinWithSpace (w2 :: ws2)).head? = w.head?
    cases w with
    | nil => exact absurd rfl hne
    | cons a t => rfl

theorem join_wsRunFree : ∀ ws : List (List Char),
    (∀ w ∈ ws, w ≠ [] ∧ ∀ c ∈ w, isSpaceChar c = false) →
    wsRunFree (joinWithSpace ws) = true := by
  intro ws
  induction ws with
  | nil => intro _; rfl
  | cons w ws ih =>
    intro h
    cases ws with
    | nil =>
      exact wsRunFree_of_no_space w (h w (List.mem_cons_self _ _)).2
    | cons w2 ws2 =>
      show wsRunFree (w ++ ' ' :: joinWithSpace (w2 :: ws2)) = true
      refine wsRunFree_append_left w _ (h w (List.mem_cons_self _ _)).2 ?_
      have hw2 := h w2 (List.mem_cons_of_mem w (List.mem_cons_self _ _))
      have hJ := ih (fun w3 hw3 => h w3 (List.mem_cons_of_mem w hw3))
      cases hJv : joinWithSpace (w2 :: ws2) with
      | nil => rfl
      | cons d rest =>
        rw [hJv] at hJ
        show (!(isSpaceChar ' ' && isSpaceChar d) && wsRunFree (d :: rest)) = true
        have hd : isSpaceChar d = false := by
          have hh : (joinWithSpace (w2 :: ws2)).head? = w2.head? :=
            head?_joinWithSpace w2 ws2 hw2.1
          rw [hJv] at hh
          have hdw2 : d ∈ w2 := List.mem_of_mem_head? (by rw [← hh]; simp)
          exact hw2.2 d hdw2
        rw [hd, hJ]
        rfl

/-- C7 counterexample: cleaning "a & b" yields "a  b" (two consecutive
spaces): stripping the non-whitelisted character joins the two spaces
around it, so whitespace is not collapsed in the final output. -/
theorem C7_counterexample :
    cleanText "a & b" = "a  b" ∧ wsRunFree (cleanText "a & b").data = false :=
  ⟨rfl, rfl⟩

/-- C7 (amended): every character of the cleaned text is whitelisted; the
result has no leading or trailing whitespace; every whitespace character
in it is a single space character; and whitespace is collapsed at the
join stage, before character stripping — character removal may therefore
reintroduce adjacent spaces in the final string. -/
theorem C7_clean_text_amended (s : String) :
    (∀ c ∈ (cleanText s).data, whitelistChar c = true)
    ∧ (∀ c, (cleanText s).data.head? = some c → isSpaceChar c = false)
    ∧ (∀ c, (cleanText s).data.getLast? = some c → isSpaceChar c = false)
    ∧ (∀ c ∈ (cleanText s).data, isSpaceChar c = true → c = ' ')
    ∧ wsRunFree (joinWithSpace (wordsOf s.data)) = true := by
  have hdata : (cleanText s).data = cleanChars s.data := rfl
  refine ⟨?_, ?_, ?_, ?_, ?_⟩
  · intro c hc
    rw [hdata] at hc
    unfold cleanChars at hc
    exact List.of_mem_filter (mem_stripChars _ c hc)
  · intro c hc
    rw [hdata] at hc
    exact stripChars_head _ c hc
  · intro c hc
    rw [hdata] at hc
    exact stripChars_getLast _ c hc
  · intro c hc hsp
    rw [hdata] at hc
    unfold cleanChars at hc
    have h1 := List.mem_of_mem_filter (mem_stripChars _ c hc)
    rcases mem_joinWithSpace _ c h1 with he | ⟨w, hw, hcw⟩
    · exact he
    · have := (splitWsAux_words s.data [] (by simp) w hw).2 c hcw
      rw [hsp] at this
      exact absurd this (by simp)
  · exact join_wsRunFree (wordsOf s.data) (splitWsAux_words s.data [] (by simp))

/-- Witness for C7 (amended) at a concrete input. -/
theorem C7_clean_text_amended_witness :
    (∀ c ∈ (cleanText "a & b").data, whitelistChar c = true) ∧
    wsRunFree (joinWithSpace (wordsOf ("a & b").data)) = true :=
  ⟨(C7_clean_text_amended "a & b").1, (C7_clean_text_amended "a & b").2.2.2.2⟩

/-! ### C8 -/

/-- A payment table whose header row is not the first row: row 0 is a
plain summary row, row 1 matches the header heuristics (its cleaned texts
contain target keywords). -/
def sampleTableLateHeader : List Row :=
  [[⟨false, false, "summary"⟩],
   [⟨false, false, "Date"⟩, ⟨false, false, "Principal"⟩, ⟨false, false, "Pen"⟩,
    ⟨false, false, "CBU"⟩, ⟨false, false, "Collector"⟩],
   [⟨false, false, "1/1"⟩, ⟨false, false, "100"⟩, ⟨false, false, "5"⟩,
    ⟨false, false, "20"⟩, ⟨false, false, "John"⟩]]

/-- The record the header row of `sampleTableLateHeader` is turned into. -/
def headerRowRecord : Rec :=
  [("Date", "Date"), ("Principal", "Principal"), ("Pen", "Pen"), ("CBU", "CBU"),
   ("Collector", "Collector"), ("Principal_PassBook", ""), ("Principal_Variance", ""),
   ("CBU_PassBook", ""), ("CBU_Variance", ""), ("CBU_withdraw_PassBook", ""),
   ("CBU_withdraw_Variance", "")]

/-- C8 counterexample: in `sampleTableLateHeader` the header row is
located at index 1, but since data rows are `all_rows[1:]` the header row
itself is extracted and emitted as a data record. -/
theorem C8_counterexample :
    findHeaderPair sampleTableLateHeader =
      some (1, ["Date", "Principal", "Pen", "CBU", "Collector"]) ∧
    extractRow (mapHeadersToTargets ["Date", "Principal", "Pen", "CBU", "Collector"])
        ["Date", "Principal", "Pen", "CBU", "Collector"]
        (sampleTableLateHeader.getD 1 []) = some headerRowRecord ∧
    headerRowRecord ∈ processTable sampleTableLateHeader := by
  refine ⟨rfl, rfl, ?_⟩
  have h : processTable sampleTableLateHeader = [headerRowRecord, sampleRecord] := rfl
  rw [h]
  exact List.mem_cons_self _ _

/-- C8 (amended): the extractor always drops exactly the first row
(`all_rows[1:]`), regardless of where the header row was located; hence
when the header row is the table's first row — the intended layout — the
header row is never emitted and every record comes from a row after it. -/
theorem C8_data_rows_amended (t : List Row) (hs : List String)
    (h0 : findHeaderPair t = some (0, hs)) (r : Rec) (hr : r ∈ processTable t) :
    ∃ row ∈ t.drop 1, extractRow (mapHeadersToTargets hs) hs row = some r := by
  rcases mem_processTable t r hr with ⟨i, hs2, hfind, _, _, row, hrow, hext⟩
  rw [h0] at hfind
  injection hfind with hp
  injection hp with hi hhs
  subst hhs
  exact ⟨row, hrow, hext⟩

/-- Witness for C8 (amended) at a concrete table whose header is row 0. -/
theorem C8_data_rows_amended_witness :
    ∃ row ∈ sampleTable.drop 1,
      extractRow (mapHeadersToTargets ["Date", "Principal", "Pen", "CBU", "Collector"])
        ["Date", "Principal", "Pen", "CBU", "Collector"] row = some sampleRecord := by
  refine C8_data_rows_amended sampleTable ["Date", "Principal", "Pen", "CBU", "Collector"] rfl
    sampleRecord ?_
  have h : processTable sampleTable = [sampleRecord] := rfl
  rw [h]
  exact List.mem_singleton.mpr rfl

/-! ### C10 -/

/-- The schema invariant: every key of the record is one of the 7 target
columns or the 6 calculated columns (values are `String` by type). -/
def keysOK (r : Rec) : Prop := ∀ p ∈ r, p.1 ∈ targetColumns ++ calculatedColumns

theorem keysOK_processTable (t : List Row) (r : Rec) (hr : r ∈ processTable t) : keysOK r := by
  rcases mem_processTable t r hr with ⟨i, hs, _, _, _, row, _, hext⟩
  rcases extractRow_eq_some _ _ _ _ hext with ⟨_, _, hreq⟩
  subst hreq
  intro p hp
  rcases mem_addCalcColumns _ p hp with hin | ⟨hc, _⟩
  · rcases buildRowData_inv (mapHeadersToTargets hs) row with ⟨hmem, _⟩
    rcases List.mem_map.mp (hmem p hin).2 with ⟨q, hq, hqp⟩
    exact List.mem_append.mpr (Or.inl (hqp ▸ mapping_snd_targets hs q hq))
  · exact List.mem_append.mpr (Or.inr hc)

theorem keysOK_fallback (blocks : List String) (r : Rec)
    (hr : r ∈ extractStructured blocks) : keysOK r := by
  intro p hp
  rcases extractStructuredAux_fields blocks [] r hr p hp with hin | ⟨_, _, hft⟩
  · exact absurd hin (List.not_mem_nil p)
  · exact List.mem_append.mpr (Or.inl hft.1)

theorem keysOK_removeDuplicates (data : List Rec) (h : ∀ r ∈ data, keysOK r) :
    ∀ r ∈ removeDuplicates data, keysOK r := by
  intro r hr
  exact h r ((removeDuplicatesAux_sublist data []).subset hr)

theorem keysOK_applyUpdates (r : Rec) (upd : List (String × String)) (h : keysOK r) :
    keysOK (applyUpdates r upd) := by
  unfold applyUpdates
  refine foldl_invariant keysOK _ upd ?_ r h
  intro acc kv _ hacc p hp
  split at hp
  · rename_i hkv
    rcases mem_dinsert _ _ _ p hp with hpe | hpin
    · subst hpe
      refine List.mem_append.mpr (Or.inr ?_)
      have hsub : ∀ k ∈ editableColumns, k ∈ calculatedColumns := by decide
      exact hsub kv.1 hkv
    · exact hacc p hpin
  · exact hacc p hp

theorem keysOK_getD (data : List Rec) (h : ∀ r ∈ data, keysOK r) :
    ∀ i, keysOK (data.getD i []) := by
  induction data with
  | nil =>
    intro i p hp
    exact absurd hp (List.not_mem_nil p)
  | cons a l ih =>
    intro i
    cases i with
    | zero => exact h a (List.mem_cons_self _ _)
    | succ j => exact ih (fun r hr => h r (List.mem_cons_of_mem a hr)) j

theorem keysOK_updateRecordAt (data : List Rec) (h : ∀ r ∈ data, keysOK r)
    (rowIdx : Int) (upd : List (String × String)) (out : List Rec)
    (hout : updateRecordAt data rowIdx upd = some out) : ∀ r ∈ out, keysOK r := by
  unfold updateRecordAt at hout
  split at hout
  · split at hout
    · injection hout with he
      subst he
      intro r hr
      rcases List.mem_or_eq_of_mem_set hr with hmem | heq
      · exact h r hmem
      · subst heq
        exact keysOK_applyUpdates _ upd (keysOK_getD data h _)
    · split at hout
      · injection hout with he
        subst he
        intro r hr
        rcases List.mem_or_eq_of_mem_set hr with hmem | heq
        · exact h r hmem
        · subst heq
          exact keysOK_applyUpdates _ upd (keysOK_getD data h _)
      · exact Option.noConfusion hout
  · injection hout with he
    subst he
    exact h

/-- C10: every record returned by scraping draws its keys from the 7
target columns and the 6 calculated columns only (all values being
strings by type); the invariant is preserved by deduplication and by
every user edit, which writes only whitelisted calculated columns. -/
theorem C10_schema_invariant (tables : List (List Row)) (blocks : List String) :
    (∀ r ∈ scrapePaymentData tables blocks, keysOK r)
    ∧ (∀ data : List Rec, (∀ r ∈ data, keysOK r) → ∀ r ∈ removeDuplicates data, keysOK r)
    ∧ (∀ data : List Rec, (∀ r ∈ data, keysOK r) →
        ∀ (rowIdx : Int) (upd : List (String × String)) (out : List Rec),
          updateRecordAt data rowIdx upd = some out → ∀ r ∈ out, keysOK r) := by
  refine ⟨?_, fun data h => keysOK_removeDuplicates data h,
    fun data h rowIdx upd out hout => keysOK_updateRecordAt data h rowIdx upd out hout⟩
  intro r hr
  simp only [scrapePaymentData] at hr
  refine keysOK_removeDuplicates _ ?_ r hr
  intro r2 hr2
  split at hr2
  · exact keysOK_fallback blocks r2 hr2
  · unfold extractFromTables at hr2
    rcases List.mem_flatten.mp hr2 with ⟨l, hl, hrl⟩
    rcases List.mem_map.mp hl with ⟨t2, _, hlt⟩
    exact keysOK_processTable t2 r2 (hlt ▸ hrl)

/-- Witness for C10: the record scraped from the sample table satisfies
the schema invariant. -/
theorem C10_schema_invariant_witness : keysOK sampleRecord := by
  have h : scrapePaymentData [sampleTable] [] = [sampleRecord] := rfl
  refine (C10_schema_invariant [sampleTable] []).1 sampleRecord ?_
  rw [h]
  exact List.mem_singleton.mpr rfl

end PaymentScraper
